import Mathlib

set_option maxRecDepth 8192

/-!
Verification development for the guardrailed SQL execution engine and the
surrounding UI components of the repository.  The engine itself
(statement normalizer, statement counter, keyword classifier, limit
enforcer, connection pool and guarded executor) is embedded here as
executable Lean definitions; the UI components (`PromptInput.handleSubmit`
and `GraphicalResponse.renderChart`) are embedded from their JavaScript
source.
-/

/-! ## Character helpers -/

def spaceChar : Char := ' '

def nlChar : Char := Char.ofNat 10

def tabChar : Char := Char.ofNat 9

def crChar : Char := Char.ofNat 13

def dashChar : Char := '-'

def slashChar : Char := '/'

def starChar : Char := '*'

def semiChar : Char := ';'

def squoteChar : Char := Char.ofNat 39

def dquoteChar : Char := Char.ofNat 34

/-- Whitespace characters recognized by the engine: space, newline, tab,
carriage return. -/
def isWsChar (c : Char) : Bool :=
  c.toNat = 32 || c.toNat = 10 || c.toNat = 9 || c.toNat = 13

/-- Identifier characters: ASCII letters, digits and underscore.  A maximal
run of these forms one word token; any other non-whitespace character is a
one-character punctuation token. -/
def isIdentChar (c : Char) : Bool :=
  (97 ≤ c.toNat && c.toNat ≤ 122) || (65 ≤ c.toNat && c.toNat ≤ 90) ||
    (48 ≤ c.toNat && c.toNat ≤ 57) || c.toNat = 95

/-- ASCII decimal digit characters. -/
def isDigitChar (c : Char) : Bool :=
  48 ≤ c.toNat && c.toNat ≤ 57

/-! ## Statement Normalizer

Modelled from the spec: the Statement Normalizer strips SQL line comments
(`--...`) and block comments (`/*...*/`) and keeps a case-folded copy for
keyword matching.  The function below is total: it produces a result on
every input text.  Modes: 0 = normal text, 1 = inside a line comment,
2 = inside a block comment, 3/4/5 = auxiliary one-character skip states
used when a two-character delimiter has been recognized. -/
def stripCommentsAux (m : Nat) : List Char → List Char
  | [] => []
  | c :: rest =>
    if m = 0 then
      (if c = dashChar ∧ rest.head? = some dashChar then stripCommentsAux 4 rest
       else if c = slashChar ∧ rest.head? = some starChar then stripCommentsAux 5 rest
       else c :: stripCommentsAux 0 rest)
    else if m = 1 then
      (if c = nlChar then spaceChar :: stripCommentsAux 0 rest
       else stripCommentsAux 1 rest)
    else if m = 2 then
      (if c = starChar ∧ rest.head? = some slashChar then stripCommentsAux 3 rest
       else stripCommentsAux 2 rest)
    else if m = 3 then spaceChar :: stripCommentsAux 0 rest
    else if m = 4 then stripCommentsAux 1 rest
    else stripCommentsAux 2 rest

/-- Modelled from the spec: comment-stripped view of the input text.  Each
removed comment is replaced by a single space so that it still acts as a
token boundary. -/
def stripComments (l : List Char) : List Char :=
  stripCommentsAux 0 l

/-! ## Statement Counter

Modelled from the spec: the Statement Counter splits the comment-stripped
text on the statement separator `;`, ignoring separators inside single- or
double-quoted string literals, and counts the segments that are non-empty
after trimming.  Quote state: 0 = outside quotes, 1 = inside single
quotes, 2 = inside double quotes. -/
def splitStmtsAux (q : Nat) (acc : List Char) : List Char → List (List Char)
  | [] => [acc.reverse]
  | c :: rest =>
    if q = 0 ∧ c = semiChar then acc.reverse :: splitStmtsAux 0 [] rest
    else if q = 0 ∧ c = squoteChar then splitStmtsAux 1 (c :: acc) rest
    else if q = 0 ∧ c = dquoteChar then splitStmtsAux 2 (c :: acc) rest
    else if q = 1 ∧ c = squoteChar then splitStmtsAux 0 (c :: acc) rest
    else if q = 2 ∧ c = dquoteChar then splitStmtsAux 0 (c :: acc) rest
    else splitStmtsAux q (c :: acc) rest

/-- Statement segments of a comment-stripped text. -/
def statementSegments (l : List Char) : List (List Char) :=
  splitStmtsAux 0 [] l

/-- Modelled from the spec: the number of statement segments that are
non-empty after trimming whitespace. -/
def countStatements (l : List Char) : Nat :=
  ((statementSegments l).filter (fun seg => !(seg.all isWsChar))).length

/-! ## Word-boundary tokenizer

Modelled from the spec: keyword matching is word-boundary-aware.  The text
is cut into tokens: maximal runs of identifier characters become word
tokens, every other non-whitespace character is its own one-character
token, whitespace only separates. -/
def flushTok (cur : List Char) : List (List Char) :=
  if cur = [] then [] else [cur.reverse]

def tokenizeAux (cur : List Char) : List Char → List (List Char)
  | [] => flushTok cur
  | c :: rest =>
    if isIdentChar c = true then tokenizeAux (c :: cur) rest
    else if isWsChar c = true then flushTok cur ++ tokenizeAux [] rest
    else flushTok cur ++ ([c] :: tokenizeAux [] rest)

def tokenize (l : List Char) : List (List Char) :=
  tokenizeAux [] l

/-! ## Vocabulary and configuration -/

/-- Modelled from the spec: denylist of mutating/administrative verbs,
including transaction-control statements. -/
def denylist_keywords : List (List Char) :=
  ["insert".data, "update".data, "delete".data, "drop".data, "alter".data,
   "create".data, "truncate".data, "attach".data, "detach".data, "pragma".data,
   "replace".data, "grant".data, "revoke".data, "vacuum".data, "reindex".data,
   "begin".data, "commit".data, "rollback".data, "savepoint".data]

/-- Modelled from the spec: whitelisted read-only leading verbs (`SELECT`,
and `WITH` for common-table-expression prefixes). -/
def allowed_leading_verbs : List (List Char) :=
  ["select".data, "with".data]

/-- Modelled from the spec: recognized engine configuration, the default
row limit applied when a statement has no `LIMIT` clause and the hard
ceiling clamped onto explicit `LIMIT` clauses. -/
structure Config where
  default_row_limit : Nat
  max_row_limit : Nat
  deriving DecidableEq

/-- Modelled from the spec: closed error taxonomy surfaced to the caller. -/
inductive ClassifiedError where
  | emptyOrUnparseable
  | multipleStatements
  | disallowedOperation
  | poolExhausted
  | timeout
  | executionFailed
  deriving DecidableEq

/-- Modelled from the spec: outcome of validation, either an accepted
(rewritten) statement or a rejection reason. -/
inductive Verdict where
  | accepted (rewritten : String)
  | rejected (reason : ClassifiedError)
  deriving DecidableEq

/-! ## Keyword/Operation Classifier -/

/-- Modelled from the spec: the Keyword/Operation Classifier.  On the
case-folded comment-stripped token view it checks, in order: the input has
a recognizable statement at all; the leading keyword is whitelisted; no
denylisted verb occurs as a standalone token anywhere; no semicolon occurs
other than a single trailing terminator.  Every failed check after the
emptiness check yields `disallowedOperation`. -/
def classifyTokens (ts : List (List Char)) : Option ClassifiedError :=
  match ts with
  | [] => some ClassifiedError.emptyOrUnparseable
  | t :: rest =>
    if t ∉ allowed_leading_verbs then some ClassifiedError.disallowedOperation
    else if ∃ w ∈ denylist_keywords, w ∈ t :: rest then some ClassifiedError.disallowedOperation
    else if [semiChar] ∈ (t :: rest).dropLast then some ClassifiedError.disallowedOperation
    else none

/-! ## Limit Enforcer -/

/-- The characters of the keyword `limit`. -/
def limitTok : List Char := "limit".data

/-- Decimal digit character for one digit value. -/
def digitCh (d : Nat) : Char :=
  if d = 0 then '0' else if d = 1 then '1' else if d = 2 then '2'
  else if d = 3 then '3' else if d = 4 then '4' else if d = 5 then '5'
  else if d = 6 then '6' else if d = 7 then '7' else if d = 8 then '8' else '9'

/-- Decimal digit string of a natural number (fuel-based so that it reduces
in the kernel). -/
def natDigitsAux : Nat → Nat → List Char
  | 0, _ => []
  | fuel + 1, n =>
    if n < 10 then [digitCh n]
    else natDigitsAux fuel (n / 10) ++ [digitCh (n % 10)]

def natDigits (n : Nat) : List Char :=
  natDigitsAux (n + 1) n

/-- A non-empty all-digit token. -/
def isNumeralTok (t : List Char) : Bool :=
  !t.isEmpty && t.all isDigitChar

/-- Numeric value of a digit token. -/
def numeralValue (t : List Char) : Nat :=
  t.foldl (fun a c => 10 * a + (c.toNat - 48)) 0

/-- Modelled from the spec: the top-level `LIMIT` clause of a statement in
token view.  A top-level `LIMIT` clause of a single read statement is its
trailing `limit n`; a `LIMIT` inside a subquery is always followed by the
closing parenthesis of the subquery and therefore never trailing. -/
def limitSuffix (ts : List (List Char)) : Option Nat :=
  match ts.reverse with
  | n :: l :: _ =>
    if l = limitTok ∧ isNumeralTok n = true then some (numeralValue n) else none
  | _ => none

/-- Modelled from the spec: the Limit Enforcer.  If the accepted statement
has no top-level `LIMIT` clause, `LIMIT default_row_limit` is appended; if
it has one whose value exceeds `max_row_limit` the value is rewritten to
`max_row_limit`; otherwise the statement is unchanged. -/
def enforceLimit (cfg : Config) (ts : List (List Char)) : List (List Char) :=
  match ts.reverse with
  | n :: l :: rest =>
    if l = limitTok ∧ isNumeralTok n = true then
      (if cfg.max_row_limit < numeralValue n then
        (natDigits cfg.max_row_limit :: l :: rest).reverse
       else ts)
    else ts ++ [limitTok, natDigits cfg.default_row_limit]
  | _ => ts ++ [limitTok, natDigits cfg.default_row_limit]

/-- Drop a single optional trailing `;` terminator token. -/
def stripTrailingSemi (ts : List (List Char)) : List (List Char) :=
  match ts.getLast? with
  | some t => if t = [semiChar] then ts.dropLast else ts
  | none => ts

/-! ## Validation pipeline -/

/-- Space-separated rendering of a token list: the canonical statement text
actually sent to the database. -/
def render : List (List Char) → List Char
  | [] => []
  | [t] => t
  | t :: t2 :: ts => t ++ spaceChar :: render (t2 :: ts)

/-- Case-folded comment-stripped token view of an input string. -/
def canonicalTokens (s : String) : List (List Char) :=
  tokenize ((stripComments s.data).map Char.toLower)

/-- Modelled from the spec: the full validate-and-rewrite pipeline.
Normalizer, then Statement Counter (rejecting with `multipleStatements`
before any further check), then Keyword Classifier, then Limit Enforcer
producing the rewritten statement sent to the database. -/
def validate (cfg : Config) (s : String) : Verdict :=
  if 2 ≤ countStatements (stripComments s.data) then
    Verdict.rejected ClassifiedError.multipleStatements
  else
    match classifyTokens (canonicalTokens s) with
    | some e => Verdict.rejected e
    | none =>
      Verdict.accepted
        (String.mk (render (enforceLimit cfg (stripTrailingSemi (canonicalTokens s)))))

/-- The spec's example configuration: default row limit 100, hard ceiling 200. -/
def exampleConfig : Config := ⟨100, 200⟩

/-! ## Connection Pool Manager

Modelled from the spec: the pool owns a bounded set of `pool_size` live
connections created lazily up to the bound.  The state records how many
connections currently exist and how many are checked out; concurrent
executions are modelled by arbitrary interleavings of the transition
relation below. -/

structure PoolConfig where
  pool_size : Nat
  deriving DecidableEq

structure PoolState where
  conns : Nat
  checkedOut : Nat
  deriving DecidableEq

/-- Modelled from the spec: atomic pool transitions.  A caller may check
out an existing idle connection, lazily create a new connection while the
pool is below its bound, release a held connection back, or discard a held
connection that failed its health probe (it is removed from the pool
rather than returned). -/
inductive PoolStep (cfg : PoolConfig) : PoolState → PoolState → Prop where
  | acquireFree (s : PoolState) :
      s.checkedOut < s.conns → PoolStep cfg s ⟨s.conns, s.checkedOut + 1⟩
  | acquireNew (s : PoolState) :
      s.checkedOut = s.conns → s.conns < cfg.pool_size →
      PoolStep cfg s ⟨s.conns + 1, s.checkedOut + 1⟩
  | releaseConn (s : PoolState) :
      0 < s.checkedOut → PoolStep cfg s ⟨s.conns, s.checkedOut - 1⟩
  | discardConn (s : PoolState) :
      0 < s.checkedOut → PoolStep cfg s ⟨s.conns - 1, s.checkedOut - 1⟩

/-- States reachable from the empty pool under any interleaving of
concurrent acquisitions and releases. -/
inductive PoolReachable (cfg : PoolConfig) : PoolState → Prop where
  | init : PoolReachable cfg ⟨0, 0⟩
  | step (s t : PoolState) :
      PoolReachable cfg s → PoolStep cfg s t → PoolReachable cfg t

inductive AcquireOutcome where
  | acquired
  | poolExhausted
  deriving DecidableEq

/-- Modelled from the spec: the outcome of one `acquire()` call.  An idle
connection is handed out if one exists; otherwise a new connection is
created if the pool is below its bound; otherwise the caller waits out its
acquire timeout and fails with `PoolExhausted` — the pool is never grown
beyond the bound. -/
def tryAcquire (cfg : PoolConfig) (s : PoolState) : AcquireOutcome × PoolState :=
  if s.checkedOut < s.conns then
    (AcquireOutcome.acquired, ⟨s.conns, s.checkedOut + 1⟩)
  else if s.conns < cfg.pool_size then
    (AcquireOutcome.acquired, ⟨s.conns + 1, s.checkedOut + 1⟩)
  else
    (AcquireOutcome.poolExhausted, s)

/-! ## Guarded executor -/

/-- Observable database-facing actions of one guarded execution. -/
inductive DBAction where
  | acquireConn
  | runStatement (sql : String)
  | releaseConn
  deriving DecidableEq

inductive GuardedResult where
  | ok (rewritten : String)
  | err (e : ClassifiedError)
  deriving DecidableEq

/-- Modelled from the spec: `execute_guarded_query`.  Validation failures
are terminal and returned synchronously without contacting the database:
no connection is acquired and no statement is sent.  For accepted
statements a connection is acquired from the pool (failing with
`PoolExhausted` when none frees up in time), the rewritten statement is
run, and the connection is released unconditionally. -/
def execute_guarded_query (cfg : Config) (pcfg : PoolConfig) (ps : PoolState)
    (s : String) : GuardedResult × PoolState × List DBAction :=
  match validate cfg s with
  | Verdict.rejected e => (GuardedResult.err e, ps, [])
  | Verdict.accepted rw =>
    match tryAcquire pcfg ps with
    | (AcquireOutcome.poolExhausted, ps2) =>
      (GuardedResult.err ClassifiedError.poolExhausted, ps2, [])
    | (AcquireOutcome.acquired, ps2) =>
      (GuardedResult.ok rw, ⟨ps2.conns, ps2.checkedOut - 1⟩,
       [DBAction.acquireConn, DBAction.runStatement rw, DBAction.releaseConn])

/-! ## UI components (from the JavaScript source)

`PromptInput.handleSubmit` from `PromptInput.js`:
`if (prompt.trim() && !isLoading) { onSubmit(prompt.trim()); setPrompt(''); }`.
The returned pair is (argument passed to `onSubmit` if any, prompt state
after the call). -/

/-- JavaScript `String.prototype.trim`: strip whitespace from both ends. -/
def jsTrim (s : String) : String :=
  String.mk (((s.data.dropWhile isWsChar).reverse.dropWhile isWsChar).reverse)

def handleSubmit (prompt : String) (isLoading : Bool) : Option String × String :=
  if jsTrim prompt ≠ "" ∧ isLoading = false then (some (jsTrim prompt), "")
  else (none, prompt)

/-- The chart kinds `GraphicalResponse.renderChart` can render. -/
inductive RenderedChart where
  | lineChart
  | doughnutChart
  | barChart
  deriving DecidableEq

/-- `GraphicalResponse.renderChart` from `GraphicalResponse.js`: a switch
on `data.type` with cases `'line'`, `'doughnut'` and a shared
`'bar'`/`default` fall-through branch. -/
def renderChart (chartType : String) : RenderedChart :=
  if chartType = "line" then RenderedChart.lineChart
  else if chartType = "doughnut" then RenderedChart.doughnutChart
  else RenderedChart.barChart

/-! ## Well-formedness predicates used by the round-trip lemmas -/

/-- A well-formed canonical token: either a non-empty word of identifier
characters that are fixed under case folding, or a single non-identifier,
non-whitespace character fixed under case folding. -/
def GoodTok (t : List Char) : Prop :=
  (t ≠ [] ∧ ∀ c ∈ t, isIdentChar c = true ∧ Char.toLower c = c) ∨
  (∃ c, t = [c] ∧ isIdentChar c = false ∧ isWsChar c = false ∧ Char.toLower c = c)

/-- No two adjacent characters form a comment delimiter (`--` or a block
comment opener). -/
def NoCommPair : List Char → Prop
  | [] => True
  | [_] => True
  | c :: d :: rest =>
    ¬(c = dashChar ∧ d = dashChar) ∧ ¬(c = slashChar ∧ d = starChar) ∧
      NoCommPair (d :: rest)

/-! ## Claim theorems -/

/-- Claim C1, counterexample: an input that contains the denylisted verb
`DELETE` as a whole token of its comment-stripped canonical text but whose
verdict is `Rejected(MultipleStatements)`, not
`Rejected(DisallowedOperation)`, because the statement-count check runs
first and no further check runs after it. -/
theorem C1_counterexample :
    "delete".data ∈ denylist_keywords ∧
    "delete".data ∈ canonicalTokens "SELECT name FROM customers; DELETE FROM orders" ∧
    validate exampleConfig "SELECT name FROM customers; DELETE FROM orders" ≠
      Verdict.rejected ClassifiedError.disallowedOperation ∧
    validate exampleConfig "SELECT name FROM customers; DELETE FROM orders" =
      Verdict.rejected ClassifiedError.multipleStatements := by decide

/-- Claim C1, amended: for every input whose comment-stripped canonical
text contains a denylisted verb as a whole token in any position —
including mixed case or inside a subquery — and which is not already
rejected by the multiple-statement check, the verdict is
`Rejected(DisallowedOperation)`. -/
theorem C1_amended_denylist_rejected :
    ∀ (cfg : Config) (s : String) (w : List Char),
      w ∈ denylist_keywords → w ∈ canonicalTokens s →
      countStatements (stripComments s.data) < 2 →
      validate cfg s = Verdict.rejected ClassifiedError.disallowedOperation := by
  intro cfg s w hw hmem hcount
  unfold validate
  rw [if_neg (by omega)]
  rcases hts : canonicalTokens s with _ | ⟨t, rest⟩
  · rw [hts] at hmem; simp at hmem
  · rw [hts] at hmem
    have hden : ∃ u ∈ denylist_keywords, u ∈ t :: rest := ⟨w, hw, hmem⟩
    by_cases h1 : t ∉ allowed_leading_verbs
    · simp [classifyTokens, h1]
    · have hden2 : ∃ u ∈ denylist_keywords, u = t ∨ u ∈ rest := by
        obtain ⟨u, hu1, hu2⟩ := hden
        exact ⟨u, hu1, by simpa using hu2⟩
      simp [classifyTokens, h1, hden2]

/-- Witness for the amended claim C1: a mixed-case denylisted verb inside
a single-statement input is rejected as a disallowed operation. -/
theorem C1_witness :
    validate exampleConfig "SELECT a DrOp b FROM t" =
      Verdict.rejected ClassifiedError.disallowedOperation :=
  C1_amended_denylist_rejected exampleConfig "SELECT a DrOp b FROM t" ("drop".data)
    (by decide) (by decide) (by decide)

/-- Claim C2: whenever the quote-aware split of the comment-stripped text
leaves two or more non-empty statement segments, the verdict is
`Rejected(MultipleStatements)` regardless of anything else in the input;
in particular the spec's example input is rejected that way. -/
theorem C2_multiple_statements_rejected :
    (∀ (cfg : Config) (s : String),
      2 ≤ countStatements (stripComments s.data) →
      validate cfg s = Verdict.rejected ClassifiedError.multipleStatements) ∧
    validate exampleConfig "SELECT name FROM customers; DROP TABLE customers;" =
      Verdict.rejected ClassifiedError.multipleStatements := by
  constructor
  · intro cfg s h
    unfold validate
    rw [if_pos h]
  · decide

/-- Witness for claim C2: a chained pair of statements is rejected with
`MultipleStatements` by the general theorem. -/
theorem C2_witness :
    validate exampleConfig "SELECT a FROM t; SELECT b FROM u" =
      Verdict.rejected ClassifiedError.multipleStatements :=
  C2_multiple_statements_rejected.1 exampleConfig "SELECT a FROM t; SELECT b FROM u"
    (by decide)

/-- Claim C3: denylist matching is word-boundary-aware, not
substring-based.  In `SELECT dropshipment_cost FROM products` the
denylisted word `drop` occurs as a substring of the case-folded
comment-stripped text but not as a whole token, and the statement is
accepted (and rewritten with the appended default `LIMIT`). -/
theorem C3_word_boundary_acceptance :
    "drop".data ∈ denylist_keywords ∧
    "drop".data <:+:
      ((stripComments ("SELECT dropshipment_cost FROM products").data).map Char.toLower) ∧
    "drop".data ∉ canonicalTokens "SELECT dropshipment_cost FROM products" ∧
    validate exampleConfig "SELECT dropshipment_cost FROM products" =
      Verdict.accepted "select dropshipment_cost from products limit 100" := by decide

/-- Claim C6: comments are stripped before any classification.  In
`select * from orders -- DROP TABLE orders` the token `drop` is present
when the raw text is tokenized without comment stripping, but absent from
the comment-stripped canonical tokens, and the input is accepted and
rewritten with the appended default `LIMIT`.  (The normalizer itself is a
total function on all input text by construction.) -/
theorem C6_comments_stripped_before_classification :
    "drop".data ∈ tokenize (("select * from orders -- DROP TABLE orders").data.map Char.toLower) ∧
    "drop".data ∉ canonicalTokens "select * from orders -- DROP TABLE orders" ∧
    validate exampleConfig "select * from orders -- DROP TABLE orders" =
      Verdict.accepted "select * from orders limit 100" := by decide

/-- Claim C7: in every reachable pool state under any interleaving of
acquisitions and releases the number of live connections never exceeds
`pool_size`; an acquire attempt either succeeds or fails with
`PoolExhausted`, it never grows the pool beyond the bound, and when all
`pool_size` connections are checked out it fails with `PoolExhausted`. -/
theorem C7_pool_bounded :
    ∀ (cfg : PoolConfig) (s : PoolState), PoolReachable cfg s →
      s.conns ≤ cfg.pool_size ∧ s.checkedOut ≤ s.conns ∧
      (tryAcquire cfg s).2.conns ≤ cfg.pool_size ∧
      (s.checkedOut = cfg.pool_size →
        (tryAcquire cfg s).1 = AcquireOutcome.poolExhausted) ∧
      ((tryAcquire cfg s).1 = AcquireOutcome.acquired ∨
        (tryAcquire cfg s).1 = AcquireOutcome.poolExhausted) := by
  intro cfg s hreach
  have hinv : s.conns ≤ cfg.pool_size ∧ s.checkedOut ≤ s.conns := by
    induction hreach with
    | init => exact ⟨Nat.zero_le _, Nat.le_refl _⟩
    | step s t hr hstep ih =>
      cases hstep <;> simp_all <;> omega
  obtain ⟨hc, ho⟩ := hinv
  refine ⟨hc, ho, ?_, ?_, ?_⟩
  · unfold tryAcquire
    split_ifs <;> simp <;> omega
  · intro hfull
    unfold tryAcquire
    split_ifs with h1 h2
    · omega
    · omega
    · rfl
  · unfold tryAcquire
    split_ifs <;> simp

/-- Witness for claim C7: with a pool of size 1, the state with one live,
checked-out connection is reachable, and an acquire attempt there fails
with `PoolExhausted`. -/
theorem C7_witness :
    PoolReachable ⟨1⟩ ⟨1, 1⟩ ∧
    (tryAcquire ⟨1⟩ ⟨1, 1⟩).1 = AcquireOutcome.poolExhausted := by
  have hr : PoolReachable ⟨1⟩ ⟨1, 1⟩ :=
    PoolReachable.step _ _ PoolReachable.init (PoolStep.acquireNew ⟨0, 0⟩ rfl (by decide))
  exact ⟨hr, (C7_pool_bounded ⟨1⟩ ⟨1, 1⟩ hr).2.2.2.1 rfl⟩

/-- Claim C8: for every input rejected by validation,
`execute_guarded_query` returns the classified error synchronously, the
pool state is untouched (no connection acquired) and no database-facing
action happens (no statement sent). -/
theorem C8_rejected_never_reaches_database :
    ∀ (cfg : Config) (pcfg : PoolConfig) (ps : PoolState) (s : String)
      (e : ClassifiedError),
      validate cfg s = Verdict.rejected e →
      execute_guarded_query cfg pcfg ps s = (GuardedResult.err e, ps, []) := by
  intro cfg pcfg ps s e h
  unfold execute_guarded_query
  rw [h]

/-- Witness for claim C8: a denylisted statement never reaches the
database. -/
theorem C8_witness :
    execute_guarded_query exampleConfig ⟨2⟩ ⟨0, 0⟩ "DROP TABLE customers" =
      (GuardedResult.err ClassifiedError.disallowedOperation, ⟨0, 0⟩, []) :=
  C8_rejected_never_reaches_database exampleConfig ⟨2⟩ ⟨0, 0⟩ "DROP TABLE customers"
    ClassifiedError.disallowedOperation (by decide)

/-- Claim C9: `PromptInput.handleSubmit` submits only when the trimmed
prompt is non-empty and `isLoading` is false; when it submits it passes
the trimmed prompt and resets the input state to the empty string, and a
whitespace-only prompt never produces a submission. -/
theorem C9_handleSubmit_submission :
    ∀ (p : String) (b : Bool),
      (∀ q st, handleSubmit p b = (some q, st) →
        q = jsTrim p ∧ jsTrim p ≠ "" ∧ b = false ∧ st = "") ∧
      ((∀ c ∈ p.data, isWsChar c = true) → handleSubmit p b = (none, p)) := by
  intro p b
  constructor
  · intro q st h
    unfold handleSubmit at h
    split_ifs at h with hc
    · obtain ⟨h1, h2⟩ := Prod.mk.injEq _ _ _ _ ▸ h
      obtain ⟨hne, hb⟩ := hc
      exact ⟨(Option.some.injEq _ _ ▸ h1).symm, hne, hb, h2.symm⟩
    · exact absurd (congrArg Prod.fst h) (by simp)
  · intro hws
    have hnil : p.data.dropWhile isWsChar = [] :=
      List.dropWhile_eq_nil_iff.mpr fun c hc => hws c hc
    have htrim : jsTrim p = "" := by
      unfold jsTrim
      rw [hnil]
      rfl
    unfold handleSubmit
    rw [if_neg]
    intro hcon
    exact hcon.1 htrim

/-- Witness for claim C9: a whitespace-only prompt is not submitted and
the input state is unchanged. -/
theorem C9_witness :
    handleSubmit "  \n " false = (none, "  \n ") :=
  (C9_handleSubmit_submission "  \n " false).2 (by decide)

/-- Claim C10: `GraphicalResponse.renderChart` is total over the chart
type field: `'line'` renders a line chart, `'doughnut'` a doughnut chart,
and every other value — including `'bar'` and unknown strings — falls
through to a bar chart; no value produces an error branch. -/
theorem C10_renderChart_total :
    renderChart "line" = RenderedChart.lineChart ∧
    renderChart "doughnut" = RenderedChart.doughnutChart ∧
    renderChart "bar" = RenderedChart.barChart ∧
    (∀ t : String, t ≠ "line" → t ≠ "doughnut" →
      renderChart t = RenderedChart.barChart) ∧
    (∀ t : String, renderChart t = RenderedChart.lineChart ∨
      renderChart t = RenderedChart.doughnutChart ∨
      renderChart t = RenderedChart.barChart) := by
  refine ⟨by decide, by decide, by decide, ?_, ?_⟩
  · intro t h1 h2
    unfold renderChart
    rw [if_neg h1, if_neg h2]
  · intro t
    unfold renderChart
    split_ifs <;> simp

/-- Witness for claim C10: an unknown chart type string falls through to
the bar chart. -/
theorem C10_witness :
    renderChart "pie" = RenderedChart.barChart :=
  C10_renderChart_total.2.2.2.1 "pie" (by decide) (by decide)

/-! ## Character-level lemmas -/

theorem toNat_ofNat_small (n : Nat) (h : n < 55296) : (Char.ofNat n).toNat = n := by
  unfold Char.ofNat
  rw [dif_pos (Or.inl h)]
  rfl

theorem toLower_fix (c : Char) (h : ¬(65 ≤ c.toNat ∧ c.toNat ≤ 90)) :
    Char.toLower c = c := by
  unfold Char.toLower
  exact if_neg h

theorem toLower_toNat_of_upper (c : Char) (h : 65 ≤ c.toNat ∧ c.toNat ≤ 90) :
    (Char.toLower c).toNat = c.toNat + 32 := by
  unfold Char.toLower
  rw [if_pos h]
  exact toNat_ofNat_small _ (by omega)

theorem toLower_idem (c : Char) :
    Char.toLower (Char.toLower c) = Char.toLower c := by
  by_cases h : 65 ≤ c.toNat ∧ c.toNat ≤ 90
  · refine toLower_fix _ ?_
    rw [toLower_toNat_of_upper c h]
    omega
  · rw [toLower_fix c h, toLower_fix c h]

theorem identChar_ranges (c : Char) (h : isIdentChar c = true) :
    (97 ≤ c.toNat ∧ c.toNat ≤ 122) ∨ (65 ≤ c.toNat ∧ c.toNat ≤ 90) ∨
      (48 ≤ c.toNat ∧ c.toNat ≤ 57) ∨ c.toNat = 95 := by
  have h2 : ((97 ≤ c.toNat ∧ c.toNat ≤ 122 ∨ 65 ≤ c.toNat ∧ c.toNat ≤ 90) ∨
      48 ≤ c.toNat ∧ c.toNat ≤ 57) ∨ c.toNat = 95 := by
    simpa [isIdentChar, Bool.or_eq_true, Bool.and_eq_true, decide_eq_true_eq] using h
  omega

theorem wsChar_ranges (c : Char) (h : isWsChar c = true) :
    c.toNat = 32 ∨ c.toNat = 10 ∨ c.toNat = 9 ∨ c.toNat = 13 := by
  have h2 : ((c.toNat = 32 ∨ c.toNat = 10) ∨ c.toNat = 9) ∨ c.toNat = 13 := by
    simpa [isWsChar, Bool.or_eq_true, decide_eq_true_eq] using h
  omega

theorem identChar_facts (c : Char) (h : isIdentChar c = true) :
    c ≠ dashChar ∧ c ≠ slashChar ∧ c ≠ starChar ∧ isWsChar c = false ∧
      c ≠ semiChar := by
  have hn := identChar_ranges c h
  refine ⟨?_, ?_, ?_, ?_, ?_⟩
  · intro he; subst he
    have : dashChar.toNat = 45 := by decide
    omega
  · intro he; subst he
    have : slashChar.toNat = 47 := by decide
    omega
  · intro he; subst he
    have : starChar.toNat = 42 := by decide
    omega
  · cases hw : isWsChar c with
    | false => rfl
    | true =>
      have := wsChar_ranges c hw
      omega
  · intro he; subst he
    have : semiChar.toNat = 59 := by decide
    omega

theorem digitChar_ident (c : Char) (h : isDigitChar c = true) :
    isIdentChar c = true := by
  have hn : 48 ≤ c.toNat ∧ c.toNat ≤ 57 := by
    simpa [isDigitChar, Bool.and_eq_true, decide_eq_true_eq] using h
  simp only [isIdentChar, Bool.or_eq_true, Bool.and_eq_true, decide_eq_true_eq]
  omega

theorem digitChar_toLower_fix (c : Char) (h : isDigitChar c = true) :
    Char.toLower c = c := by
  have hn : 48 ≤ c.toNat ∧ c.toNat ≤ 57 := by
    simpa [isDigitChar, Bool.and_eq_true, decide_eq_true_eq] using h
  exact toLower_fix c (by omega)

theorem digitCh_digit (d : Nat) : isDigitChar (digitCh d) = true := by
  unfold digitCh
  split_ifs <;> decide

theorem digitCh_toNat (d : Nat) (h : d < 10) : (digitCh d).toNat = 48 + d := by
  unfold digitCh
  split_ifs with h0 h1 h2 h3 h4 h5 h6 h7 h8
  · subst h0; decide
  · subst h1; decide
  · subst h2; decide
  · subst h3; decide
  · subst h4; decide
  · subst h5; decide
  · subst h6; decide
  · subst h7; decide
  · subst h8; decide
  · have h9 : d = 9 := by omega
    subst h9; decide

/-! ## Digit-string lemmas -/

theorem natDigitsAux_all_digit (fuel : Nat) :
    ∀ n, ∀ c ∈ natDigitsAux fuel n, isDigitChar c = true := by
  induction fuel with
  | zero => intro n c hc; simp [natDigitsAux] at hc
  | succ f ih =>
    intro n c hc
    unfold natDigitsAux at hc
    split_ifs at hc with h
    · simp at hc
      subst hc
      exact digitCh_digit n
    · rcases List.mem_append.mp hc with h1 | h2
      · exact ih _ c h1
      · simp at h2
        subst h2
        exact digitCh_digit _

theorem natDigits_all_digit (n : Nat) :
    ∀ c ∈ natDigits n, isDigitChar c = true :=
  natDigitsAux_all_digit (n + 1) n

theorem natDigits_ne_nil (n : Nat) : natDigits n ≠ [] := by
  unfold natDigits natDigitsAux
  split_ifs <;> simp

theorem numeralValue_append_digit (t : List Char) (c : Char) :
    numeralValue (t ++ [c]) = 10 * numeralValue t + (c.toNat - 48) := by
  unfold numeralValue
  rw [List.foldl_append]
  rfl

theorem numeralValue_natDigitsAux (fuel : Nat) :
    ∀ n, n < fuel → numeralValue (natDigitsAux fuel n) = n := by
  induction fuel with
  | zero => intro n hn; omega
  | succ f ih =>
    intro n hn
    unfold natDigitsAux
    split_ifs with h
    · show numeralValue [digitCh n] = n
      unfold numeralValue
      simp only [List.foldl_cons, List.foldl_nil]
      rw [digitCh_toNat n h]
      omega
    · rw [numeralValue_append_digit, ih (n / 10) (by omega),
        digitCh_toNat (n % 10) (by omega)]
      omega

theorem numeralValue_natDigits (n : Nat) : numeralValue (natDigits n) = n :=
  numeralValue_natDigitsAux (n + 1) n (by omega)

theorem isNumeralTok_natDigits (n : Nat) : isNumeralTok (natDigits n) = true := by
  unfold isNumeralTok
  rw [Bool.and_eq_true]
  constructor
  · cases h : natDigits n with
    | nil => exact absurd h (natDigits_ne_nil n)
    | cons c cs => rfl
  · rw [List.all_eq_true]
    intro c hc
    exact natDigits_all_digit n c hc

theorem natDigits_goodTok (n : Nat) : GoodTok (natDigits n) := by
  left
  refine ⟨natDigits_ne_nil n, fun c hc => ?_⟩
  have hd := natDigits_all_digit n c hc
  exact ⟨digitChar_ident c hd, digitChar_toLower_fix c hd⟩

theorem natDigits_ne_semiTok (n : Nat) : natDigits n ≠ [semiChar] := by
  intro h
  have := natDigits_all_digit n semiChar (by rw [h]; exact List.mem_cons_self _ _)
  exact absurd this (by decide)

theorem natDigits_not_denylisted (n : Nat) : natDigits n ∉ denylist_keywords := by
  intro h
  have hhead : ∀ w ∈ denylist_keywords, w.head?.all (fun c => !isDigitChar c) = true := by
    decide
  cases hd : natDigits n with
  | nil => exact absurd hd (natDigits_ne_nil n)
  | cons c cs =>
    rw [hd] at h
    have h1 := hhead _ h
    simp only [List.head?_cons, Option.all_some, Bool.not_eq_true'] at h1
    have h2 := natDigits_all_digit n c (by rw [hd]; exact List.mem_cons_self _ _)
    rw [h2] at h1
    cases h1

theorem limitTok_goodTok : GoodTok limitTok := by
  left
  constructor
  · decide
  · decide

/-! ## Comment-stripping identity on rendered text -/

theorem noCommPair_tail (c : Char) (l : List Char) (h : NoCommPair (c :: l)) :
    NoCommPair l := by
  cases l with
  | nil => trivial
  | cons d rest => exact h.2.2

theorem noCommPair_cons (c : Char) (l : List Char)
    (h1 : ¬(c = dashChar ∧ l.head? = some dashChar))
    (h2 : ¬(c = slashChar ∧ l.head? = some starChar))
    (h : NoCommPair l) : NoCommPair (c :: l) := by
  cases l with
  | nil => trivial
  | cons d rest =>
    refine ⟨fun hc => h1 ⟨hc.1, ?_⟩, fun hc => h2 ⟨hc.1, ?_⟩, h⟩
    · rw [hc.2]; rfl
    · rw [hc.2]; rfl

theorem stripCommentsAux_id (l : List Char) (h : NoCommPair l) :
    stripCommentsAux 0 l = l := by
  induction l with
  | nil => rfl
  | cons c rest ih =>
    have h1 : ¬(c = dashChar ∧ rest.head? = some dashChar) := by
      cases rest with
      | nil => rintro ⟨-, hh⟩; cases hh
      | cons d r2 =>
        rintro ⟨hc, hh⟩
        exact h.1 ⟨hc, Option.some.inj hh⟩
    have h2 : ¬(c = slashChar ∧ rest.head? = some starChar) := by
      cases rest with
      | nil => rintro ⟨-, hh⟩; cases hh
      | cons d r2 =>
        rintro ⟨hc, hh⟩
        exact h.2.1 ⟨hc, Option.some.inj hh⟩
    show stripCommentsAux 0 (c :: rest) = c :: rest
    unfold stripCommentsAux
    simp only [if_pos rfl, if_neg h1, if_neg h2]
    exact congrArg (c :: ·) (ih (noCommPair_tail c rest h))

theorem noCommPair_append_ident (t l : List Char)
    (hident : ∀ c ∈ t, isIdentChar c = true) (hl : NoCommPair l) :
    NoCommPair (t ++ l) := by
  induction t with
  | nil => simpa using hl
  | cons c t' ih =>
    have hfacts := identChar_facts c (hident c (List.mem_cons_self c t'))
    exact noCommPair_cons c (t' ++ l) (fun hc => hfacts.1 hc.1)
      (fun hc => hfacts.2.1 hc.1)
      (ih fun d hd => hident d (List.mem_cons_of_mem c hd))

theorem noCommPair_space_cons (l : List Char) (hl : NoCommPair l) :
    NoCommPair (spaceChar :: l) := by
  refine noCommPair_cons spaceChar l ?_ ?_ hl
  · rintro ⟨hc, -⟩; exact absurd hc (by decide)
  · rintro ⟨hc, -⟩; exact absurd hc (by decide)

theorem noCommPair_cons_space (c : Char) (l : List Char)
    (hl : NoCommPair (spaceChar :: l)) : NoCommPair (c :: spaceChar :: l) := by
  refine noCommPair_cons c (spaceChar :: l) ?_ ?_ hl
  · rintro ⟨-, hh⟩
    have := Option.some.inj hh
    exact absurd this (by decide)
  · rintro ⟨-, hh⟩
    have := Option.some.inj hh
    exact absurd this (by decide)

theorem goodTok_chars_fixed (t : List Char) (h : GoodTok t) :
    ∀ c ∈ t, Char.toLower c = c := by
  intro c hc
  rcases h with ⟨-, hall⟩ | ⟨d, rfl, -, -, hfix⟩
  · exact (hall c hc).2
  · rcases List.mem_singleton.mp hc with rfl
    exact hfix

theorem noCommPair_render (ts : List (List Char)) (h : ∀ t ∈ ts, GoodTok t) :
    NoCommPair (render ts) := by
  induction ts with
  | nil => trivial
  | cons t ts' ih =>
    cases ts' with
    | nil =>
      show NoCommPair (render [t])
      rcases h t (List.mem_cons_self t []) with ⟨-, hall⟩ | ⟨c, rfl, -, -, -⟩
      · have := noCommPair_append_ident t [] (fun c hc => (hall c hc).1) trivial
        simpa [render] using this
      · trivial
    | cons t2 ts2 =>
      have hrest : NoCommPair (spaceChar :: render (t2 :: ts2)) :=
        noCommPair_space_cons _ (ih fun u hu => h u (List.mem_cons_of_mem t hu))
      show NoCommPair (t ++ spaceChar :: render (t2 :: ts2))
      rcases h t (List.mem_cons_self t (t2 :: ts2)) with ⟨-, hall⟩ | ⟨c, rfl, -, -, -⟩
      · exact noCommPair_append_ident t _ (fun c hc => (hall c hc).1) hrest
      · exact noCommPair_cons_space c _ hrest

theorem render_chars (ts : List (List Char)) (c : Char) (hc : c ∈ render ts) :
    (∃ t ∈ ts, c ∈ t) ∨ c = spaceChar := by
  induction ts with
  | nil => cases hc
  | cons t ts' ih =>
    cases ts' with
    | nil =>
      left
      exact ⟨t, List.mem_cons_self t [], hc⟩
    | cons t2 ts2 =>
      rcases List.mem_append.mp hc with h1 | h2
      · exact Or.inl ⟨t, List.mem_cons_self t _, h1⟩
      · rcases List.mem_cons.mp h2 with rfl | h3
        · exact Or.inr rfl
        · rcases ih h3 with ⟨u, hu1, hu2⟩ | hsp
          · exact Or.inl ⟨u, List.mem_cons_of_mem t hu1, hu2⟩
          · exact Or.inr hsp

theorem map_toLower_id (l : List Char) (h : ∀ c ∈ l, Char.toLower c = c) :
    l.map Char.toLower = l := by
  induction l with
  | nil => rfl
  | cons c rest ih =>
    simp only [List.map_cons]
    rw [h c (List.mem_cons_self c rest), ih fun d hd => h d (List.mem_cons_of_mem c hd)]

theorem render_chars_fixed (ts : List (List Char)) (h : ∀ t ∈ ts, GoodTok t) :
    ∀ c ∈ render ts, Char.toLower c = c := by
  intro c hc
  rcases render_chars ts c hc with ⟨t, ht, hct⟩ | rfl
  · exact goodTok_chars_fixed t (h t ht) c hct
  · decide

/-! ## Tokenizer round-trip lemmas -/

theorem tokenizeAux_ident_run (t : List Char) :
    ∀ (cur l : List Char), (∀ c ∈ t, isIdentChar c = true) →
      tokenizeAux cur (t ++ l) = tokenizeAux (t.reverse ++ cur) l := by
  induction t with
  | nil => intro cur l h; simp
  | cons c t' ih =>
    intro cur l h
    have hc : isIdentChar c = true := h c (List.mem_cons_self c t')
    show tokenizeAux cur (c :: (t' ++ l)) = _
    simp only [tokenizeAux]
    rw [if_pos hc, ih (c :: cur) l fun d hd => h d (List.mem_cons_of_mem c hd)]
    congr 1
    simp [List.reverse_cons, List.append_assoc]

theorem tokenizeAux_space (cur l : List Char) :
    tokenizeAux cur (spaceChar :: l) = flushTok cur ++ tokenizeAux [] l := by
  simp only [tokenizeAux]
  rw [if_neg (by decide), if_pos (by decide)]

theorem tokenizeAux_punct (cur l : List Char) (c : Char)
    (hid : isIdentChar c = false) (hws : isWsChar c = false) :
    tokenizeAux cur (c :: l) = flushTok cur ++ ([c] :: tokenizeAux [] l) := by
  simp only [tokenizeAux]
  rw [if_neg (by simp [hid]), if_neg (by simp [hws])]

theorem flushTok_reverse (t : List Char) (h : t ≠ []) :
    flushTok t.reverse = [t] := by
  unfold flushTok
  rw [if_neg (by simpa using h), List.reverse_reverse]

theorem tokenize_render (ts : List (List Char)) (h : ∀ t ∈ ts, GoodTok t) :
    tokenize (render ts) = ts := by
  induction ts with
  | nil => rfl
  | cons t ts' ih =>
    have ihr : tokenize (render ts') = ts' :=
      ih fun u hu => h u (List.mem_cons_of_mem t hu)
    cases ts' with
    | nil =>
      show tokenizeAux [] (render [t]) = [t]
      rcases h t (List.mem_cons_self t []) with ⟨hne, hall⟩ | ⟨c, rfl, hid, hws, -⟩
      · have h2 := tokenizeAux_ident_run t [] [] fun c hc => (hall c hc).1
        rw [List.append_nil, List.append_nil] at h2
        show tokenizeAux [] t = [t]
        rw [h2]
        exact flushTok_reverse t hne
      · show tokenizeAux [] [c] = [[c]]
        rw [tokenizeAux_punct [] [] c hid hws]
        rfl
    | cons t2 ts2 =>
      show tokenizeAux [] (t ++ spaceChar :: render (t2 :: ts2)) = t :: t2 :: ts2
      rcases h t (List.mem_cons_self t (t2 :: ts2)) with ⟨hne, hall⟩ | ⟨c, rfl, hid, hws, -⟩
      · rw [tokenizeAux_ident_run t [] (spaceChar :: render (t2 :: ts2))
          fun c hc => (hall c hc).1]
        rw [List.append_nil, tokenizeAux_space, flushTok_reverse t hne]
        rw [show tokenizeAux [] (render (t2 :: ts2)) = t2 :: ts2 from ihr]
        rfl
      · show tokenizeAux [] (c :: spaceChar :: render (t2 :: ts2)) = [c] :: t2 :: ts2
        rw [tokenizeAux_punct [] _ c hid hws, tokenizeAux_space]
        show [c] :: (flushTok [] ++ tokenizeAux [] (render (t2 :: ts2))) = [c] :: t2 :: ts2
        rw [show tokenizeAux [] (render (t2 :: ts2)) = t2 :: ts2 from ihr]
        rfl

theorem canonicalTokens_render (ts : List (List Char)) (h : ∀ t ∈ ts, GoodTok t) :
    canonicalTokens (String.mk (render ts)) = ts := by
  unfold canonicalTokens
  show tokenize ((stripComments (render ts)).map Char.toLower) = ts
  rw [show stripComments (render ts) = render ts from
    stripCommentsAux_id _ (noCommPair_render ts h)]
  rw [map_toLower_id _ (render_chars_fixed ts h)]
  exact tokenize_render ts h

/-! ## Tokenizer output well-formedness -/

theorem flushTok_goodTok (cur : List Char)
    (hcur : ∀ c ∈ cur, isIdentChar c = true ∧ Char.toLower c = c) :
    ∀ t ∈ flushTok cur, GoodTok t := by
  intro t ht
  unfold flushTok at ht
  split_ifs at ht with hnil
  · cases ht
  · rcases List.mem_singleton.mp ht with rfl
    left
    exact ⟨by simpa using hnil, fun c hc => hcur c (List.mem_reverse.mp hc)⟩

theorem tokenizeAux_goodTok (l : List Char) :
    ∀ (cur : List Char), (∀ c ∈ l, Char.toLower c = c) →
      (∀ c ∈ cur, isIdentChar c = true ∧ Char.toLower c = c) →
      ∀ t ∈ tokenizeAux cur l, GoodTok t := by
  induction l with
  | nil =>
    intro cur hl hcur t ht
    exact flushTok_goodTok cur hcur t ht
  | cons c rest ih =>
    intro cur hl hcur t ht
    have hlr : ∀ d ∈ rest, Char.toLower d = d :=
      fun d hd => hl d (List.mem_cons_of_mem c hd)
    cases hid : isIdentChar c with
    | true =>
      rw [show tokenizeAux cur (c :: rest) = tokenizeAux (c :: cur) rest from by
        simp only [tokenizeAux]; rw [if_pos hid]] at ht
      refine ih (c :: cur) hlr ?_ t ht
      intro d hd
      rcases List.mem_cons.mp hd with rfl | hd2
      · exact ⟨hid, hl d (List.mem_cons_self _ _)⟩
      · exact hcur d hd2
    | false =>
      cases hws : isWsChar c with
      | true =>
        rw [show tokenizeAux cur (c :: rest) = flushTok cur ++ tokenizeAux [] rest from by
          simp only [tokenizeAux]; rw [if_neg (by simp [hid]), if_pos hws]] at ht
        rcases List.mem_append.mp ht with h1 | h2
        · exact flushTok_goodTok cur hcur t h1
        · exact ih [] hlr (by simp) t h2
      | false =>
        rw [tokenizeAux_punct cur rest c hid hws] at ht
        rcases List.mem_append.mp ht with h1 | h2
        · exact flushTok_goodTok cur hcur t h1
        · rcases List.mem_cons.mp h2 with rfl | h3
          · exact Or.inr ⟨c, rfl, hid, hws, hl c (List.mem_cons_self _ _)⟩
          · exact ih [] hlr (by simp) t h3

theorem canonicalTokens_goodTok (s : String) :
    ∀ t ∈ canonicalTokens s, GoodTok t := by
  intro t ht
  refine tokenizeAux_goodTok _ [] ?_ (by simp) t ht
  intro c hc
  rcases List.mem_map.mp hc with ⟨d, -, rfl⟩
  exact toLower_idem d

/-! ## Statement-counter lemmas for rendered statements -/

theorem splitStmtsAux_no_semi (l : List Char) :
    ∀ (q : Nat) (acc : List Char), (∀ c ∈ l, c ≠ semiChar) →
      splitStmtsAux q acc l = [acc.reverse ++ l] := by
  induction l with
  | nil => intro q acc h; simp [splitStmtsAux]
  | cons c rest ih =>
    intro q acc h
    have hc : c ≠ semiChar := h c (List.mem_cons_self c rest)
    have hr : ∀ d ∈ rest, d ≠ semiChar := fun d hd => h d (List.mem_cons_of_mem c hd)
    show splitStmtsAux q acc (c :: rest) = _
    simp only [splitStmtsAux]
    split_ifs with h1 h2 h3 h4 h5
    · exact absurd h1.2 hc
    all_goals rw [ih _ _ hr]; simp

theorem countStatements_no_semi (l : List Char) (hs : ∀ c ∈ l, c ≠ semiChar)
    (hnb : ∃ c ∈ l, isWsChar c = false) :
    countStatements l = 1 := by
  unfold countStatements statementSegments
  rw [splitStmtsAux_no_semi l 0 [] hs]
  obtain ⟨c, hc, hcw⟩ := hnb
  have hall : l.all isWsChar = false := by
    cases hall : l.all isWsChar with
    | false => rfl
    | true =>
      have := List.all_eq_true.mp hall c hc
      rw [hcw] at this
      cases this
  simp [hall]

theorem render_head_mem (ts : List (List Char)) (t : List Char)
    (ht : ts.head? = some t) (c : Char) (hc : c ∈ t) : c ∈ render ts := by
  cases ts with
  | nil => cases ht
  | cons t0 ts' =>
    have h0 : t0 = t := Option.some.inj ht
    subst h0
    cases ts' with
    | nil => exact hc
    | cons t2 ts2 => exact List.mem_append.mpr (Or.inl hc)

theorem render_no_semi (ts : List (List Char)) (hgood : ∀ t ∈ ts, GoodTok t)
    (hsemi : ∀ t ∈ ts, t ≠ [semiChar]) : ∀ c ∈ render ts, c ≠ semiChar := by
  intro c hc
  rcases render_chars ts c hc with ⟨t, ht, hct⟩ | rfl
  · rcases hgood t ht with ⟨-, hall⟩ | ⟨d, rfl, -, -, -⟩
    · exact (identChar_facts c (hall c hct).1).2.2.2.2
    · rcases List.mem_singleton.mp hct with rfl
      intro he
      exact hsemi [c] ht (by rw [he])
  · decide

theorem goodTok_has_nonws (t : List Char) (h : GoodTok t) :
    ∃ c ∈ t, isWsChar c = false := by
  rcases h with ⟨hne, hall⟩ | ⟨c, rfl, -, hws, -⟩
  · cases t with
    | nil => exact absurd rfl hne
    | cons c cs =>
      exact ⟨c, List.mem_cons_self c cs,
        (identChar_facts c (hall c (List.mem_cons_self c cs)).1).2.2.2.1⟩
  · exact ⟨c, List.mem_cons_self c [], hws⟩

/-! ## stripTrailingSemi lemmas -/

theorem mem_stripTrailingSemi (ts : List (List Char)) (t : List Char)
    (h : t ∈ stripTrailingSemi ts) : t ∈ ts := by
  unfold stripTrailingSemi at h
  split at h
  · split_ifs at h
    · exact List.dropLast_subset ts h
    · exact h
  · exact h

theorem stripTrailingSemi_no_semi (ts : List (List Char))
    (h : [semiChar] ∉ ts.dropLast) :
    ∀ t ∈ stripTrailingSemi ts, t ≠ [semiChar] := by
  intro t ht he
  subst he
  unfold stripTrailingSemi at ht
  split at ht
  next u heq =>
    split_ifs at ht with hu
    · exact h ht
    · have hdec : ts.dropLast ++ [u] = ts := List.dropLast_append_getLast? u heq
      rw [← hdec] at ht
      rcases List.mem_append.mp ht with h1 | h2
      · exact h h1
      · exact hu (List.mem_singleton.mp h2).symm
  next heq =>
    have hnil : ts = [] := List.getLast?_eq_none_iff.mp heq
    subst hnil
    cases ht

theorem stripTrailingSemi_head (ts : List (List Char)) (t : List Char)
    (ht : ts.head? = some t) (hne : t ≠ [semiChar]) :
    (stripTrailingSemi ts).head? = some t := by
  cases ts with
  | nil => cases ht
  | cons t0 rest =>
    have h0 : t0 = t := Option.some.inj ht
    subst h0
    unfold stripTrailingSemi
    split
    next u heq =>
      split_ifs with hu
      · cases rest with
        | nil =>
          have hut : u = t0 := Option.some.inj (by simpa using heq.symm)
          exact absurd (hut ▸ hu) hne
        | cons t2 r2 => rfl
      · rfl
    next heq => rfl

theorem stripTrailingSemi_id (ts : List (List Char))
    (h : ∀ t ∈ ts, t ≠ [semiChar]) : stripTrailingSemi ts = ts := by
  unfold stripTrailingSemi
  split
  next u heq =>
    have hu : u ∈ ts := by
      have hdec : ts.dropLast ++ [u] = ts := List.dropLast_append_getLast? u heq
      rw [← hdec]
      exact List.mem_append.mpr (Or.inr (List.mem_singleton.mpr rfl))
    rw [if_neg (h u hu)]
  next heq => rfl

theorem stripTrailingSemi_goodTok (ts : List (List Char))
    (h : ∀ t ∈ ts, GoodTok t) : ∀ t ∈ stripTrailingSemi ts, GoodTok t :=
  fun t ht => h t (mem_stripTrailingSemi ts t ht)

/-! ## Limit-enforcer lemmas -/

theorem enforceLimit_of_none (cfg : Config) (ts : List (List Char))
    (h : limitSuffix ts = none) :
    enforceLimit cfg ts = ts ++ [limitTok, natDigits cfg.default_row_limit] := by
  unfold enforceLimit
  split
  next n l rest heq =>
    unfold limitSuffix at h
    simp only [heq] at h
    split_ifs at h with hc
    rw [if_neg hc]
  next => rfl

theorem limitSuffix_concat (xs : List (List Char)) (l n : List Char) :
    limitSuffix (xs ++ [l, n]) =
      if l = limitTok ∧ isNumeralTok n = true then some (numeralValue n) else none := by
  unfold limitSuffix
  have hrev : (xs ++ [l, n]).reverse = n :: l :: xs.reverse := by simp
  split
  next n2 l2 rest2 heq =>
    rw [hrev] at heq
    obtain ⟨rfl, rfl, -⟩ : n = n2 ∧ l = l2 ∧ xs.reverse = rest2 := by
      injection heq with h1 h2
      injection h2 with h3 h4
      exact ⟨h1, h3, h4⟩
    rfl
  next hcatch => exact absurd hrev (hcatch _ _ _)

theorem limitSuffix_append_limit (ts : List (List Char)) (d : Nat) :
    limitSuffix (ts ++ [limitTok, natDigits d]) = some d := by
  rw [limitSuffix_concat ts limitTok (natDigits d),
    if_pos ⟨rfl, isNumeralTok_natDigits d⟩, numeralValue_natDigits]

theorem limitSuffix_some_inv (ts : List (List Char)) (k : Nat)
    (h : limitSuffix ts = some k) :
    ∃ xs n, ts = xs ++ [limitTok, n] ∧ isNumeralTok n = true ∧ numeralValue n = k := by
  unfold limitSuffix at h
  split at h
  next n l rest heq =>
    split_ifs at h with hc
    refine ⟨rest.reverse, n, ?_, hc.2, Option.some.inj h⟩
    have : ts.reverse.reverse = (n :: l :: rest).reverse := by rw [heq]
    rw [List.reverse_reverse] at this
    rw [this, hc.1]
    simp
  next => cases h

theorem enforceLimit_concat (cfg : Config) (xs : List (List Char)) (n : List Char)
    (hn : isNumeralTok n = true) :
    enforceLimit cfg (xs ++ [limitTok, n]) =
      if cfg.max_row_limit < numeralValue n then
        xs ++ [limitTok, natDigits cfg.max_row_limit]
      else xs ++ [limitTok, n] := by
  unfold enforceLimit
  have hrev : (xs ++ [limitTok, n]).reverse = n :: limitTok :: xs.reverse := by simp
  split
  next n2 l2 rest2 heq =>
    rw [hrev] at heq
    obtain ⟨rfl, rfl, rfl⟩ : n = n2 ∧ limitTok = l2 ∧ xs.reverse = rest2 := by
      injection heq with h1 h2
      injection h2 with h3 h4
      exact ⟨h1, h3, h4⟩
    rw [if_pos ⟨rfl, hn⟩]
    split_ifs with hlt
    · simp
    · rfl
  next hcatch => exact absurd hrev (hcatch _ _ _)

theorem enforceLimit_idem (cfg : Config) (ts : List (List Char))
    (hdm : cfg.default_row_limit ≤ cfg.max_row_limit) :
    enforceLimit cfg (enforceLimit cfg ts) = enforceLimit cfg ts := by
  rcases hls : limitSuffix ts with _ | k
  · rw [enforceLimit_of_none cfg ts hls,
      enforceLimit_concat cfg ts (natDigits cfg.default_row_limit)
        (isNumeralTok_natDigits _),
      numeralValue_natDigits, if_neg (by omega)]
  · obtain ⟨xs, n, rfl, hn, hval⟩ := limitSuffix_some_inv ts k hls
    rw [enforceLimit_concat cfg xs n hn]
    split_ifs with hlt
    · rw [enforceLimit_concat cfg xs (natDigits cfg.max_row_limit)
        (isNumeralTok_natDigits _), numeralValue_natDigits, if_neg (by omega)]
    · rw [enforceLimit_concat cfg xs n hn, if_neg hlt]

theorem enforceLimit_mem (cfg : Config) (ts : List (List Char)) (t : List Char)
    (h : t ∈ enforceLimit cfg ts) :
    t ∈ ts ∨ t = limitTok ∨ ∃ k, t = natDigits k := by
  unfold enforceLimit at h
  split at h
  next n l rest heq =>
    split_ifs at h with hc hlt
    · rw [List.mem_reverse] at h
      rcases List.mem_cons.mp h with rfl | h2
      · exact Or.inr (Or.inr ⟨cfg.max_row_limit, rfl⟩)
      · rcases List.mem_cons.mp h2 with rfl | h3
        · exact Or.inr (Or.inl hc.1)
        · left
          have : t ∈ ts.reverse := by
            rw [heq]
            exact List.mem_cons_of_mem n (List.mem_cons_of_mem l h3)
          exact List.mem_reverse.mp this
    · exact Or.inl h
    · rcases List.mem_append.mp h with h1 | h2
      · exact Or.inl h1
      · rcases List.mem_cons.mp h2 with rfl | h3
        · exact Or.inr (Or.inl rfl)
        · rcases List.mem_singleton.mp h3 with rfl
          exact Or.inr (Or.inr ⟨cfg.default_row_limit, rfl⟩)
  next =>
    rcases List.mem_append.mp h with h1 | h2
    · exact Or.inl h1
    · rcases List.mem_cons.mp h2 with rfl | h3
      · exact Or.inr (Or.inl rfl)
      · rcases List.mem_singleton.mp h3 with rfl
        exact Or.inr (Or.inr ⟨cfg.default_row_limit, rfl⟩)

theorem enforceLimit_goodTok (cfg : Config) (ts : List (List Char))
    (h : ∀ t ∈ ts, GoodTok t) : ∀ t ∈ enforceLimit cfg ts, GoodTok t := by
  intro t ht
  rcases enforceLimit_mem cfg ts t ht with h1 | rfl | ⟨k, rfl⟩
  · exact h t h1
  · exact limitTok_goodTok
  · exact natDigits_goodTok k

theorem enforceLimit_no_semi (cfg : Config) (ts : List (List Char))
    (h : ∀ t ∈ ts, t ≠ [semiChar]) :
    ∀ t ∈ enforceLimit cfg ts, t ≠ [semiChar] := by
  intro t ht
  rcases enforceLimit_mem cfg ts t ht with h1 | rfl | ⟨k, rfl⟩
  · exact h t h1
  · decide
  · exact natDigits_ne_semiTok k

theorem enforceLimit_no_deny (cfg : Config) (ts : List (List Char))
    (h : ∀ w ∈ denylist_keywords, w ∉ ts) :
    ∀ w ∈ denylist_keywords, w ∉ enforceLimit cfg ts := by
  intro w hw hmem
  rcases enforceLimit_mem cfg ts w hmem with h1 | rfl | ⟨k, rfl⟩
  · exact h w hw h1
  · exact absurd hw (by decide)
  · exact natDigits_not_denylisted k hw

theorem enforceLimit_head (cfg : Config) (ts : List (List Char)) (t0 : List Char)
    (ht : ts.head? = some t0) (hallow : t0 ∈ allowed_leading_verbs) :
    (enforceLimit cfg ts).head? = some t0 := by
  unfold enforceLimit
  split
  next n l rest heq =>
    split_ifs with hc hlt
    · cases rest with
      | nil =>
        have hts : ts = [l, n] := by
          have h2 : ts.reverse.reverse = ([n, l] : List (List Char)).reverse := by
            rw [heq]
          rwa [List.reverse_reverse] at h2
        rw [hts] at ht
        have : l = t0 := Option.some.inj ht
        rw [← this, hc.1] at hallow
        exact absurd hallow (by decide)
      | cons r rs =>
        have hts : ts = (r :: rs).reverse ++ [l, n] := by
          have h2 : ts.reverse.reverse = (n :: l :: r :: rs).reverse := by rw [heq]
          rw [List.reverse_reverse] at h2
          rw [h2]
          simp
        rw [hts] at ht
        rw [show (natDigits cfg.max_row_limit :: l :: r :: rs).reverse =
          (r :: rs).reverse ++ [l, natDigits cfg.max_row_limit] from by simp]
        rw [List.head?_append] at ht ⊢
        cases hh : ((r :: rs).reverse).head? with
        | none =>
          rw [List.head?_eq_none_iff] at hh
          exact absurd hh (by simp)
        | some x =>
          rw [hh] at ht
          simpa using ht
    · exact ht
    · cases ts with
      | nil => cases ht
      | cons a l2 =>
        have : a = t0 := Option.some.inj ht
        subst this
        rfl
  next =>
    cases ts with
    | nil => cases ht
    | cons a l2 =>
      have : a = t0 := Option.some.inj ht
      subst this
      rfl

/-! ## Classifier and pipeline inversion lemmas -/

theorem classifyTokens_none_inv (ts : List (List Char))
    (h : classifyTokens ts = none) :
    ∃ t0 rest, ts = t0 :: rest ∧ t0 ∈ allowed_leading_verbs ∧
      (∀ w ∈ denylist_keywords, w ∉ ts) ∧ [semiChar] ∉ ts.dropLast := by
  cases ts with
  | nil => simp [classifyTokens] at h
  | cons t rest =>
    simp only [classifyTokens] at h
    split_ifs at h with h1 h2 h3
    exact ⟨t, rest, rfl, h1, fun w hw hmem => h2 ⟨w, hw, hmem⟩, h3⟩

theorem classifyTokens_eq_none (t0 : List Char) (rest : List (List Char))
    (h1 : t0 ∈ allowed_leading_verbs)
    (h2 : ∀ w ∈ denylist_keywords, w ∉ t0 :: rest)
    (h3 : [semiChar] ∉ (t0 :: rest).dropLast) :
    classifyTokens (t0 :: rest) = none := by
  have hden : ¬∃ w ∈ denylist_keywords, w ∈ t0 :: rest := by
    rintro ⟨w, hw, hmem⟩
    exact h2 w hw hmem
  simp only [classifyTokens]
  rw [if_neg (not_not_intro h1), if_neg hden, if_neg h3]

theorem validate_accepted_inv (cfg : Config) (s r : String)
    (h : validate cfg s = Verdict.accepted r) :
    countStatements (stripComments s.data) < 2 ∧
    classifyTokens (canonicalTokens s) = none ∧
    r = String.mk (render (enforceLimit cfg (stripTrailingSemi (canonicalTokens s)))) := by
  unfold validate at h
  split_ifs at h with h1
  split at h
  next e heq => exact absurd h (by simp)
  next heq => exact ⟨by omega, heq, (Verdict.accepted.inj h).symm⟩

theorem allowed_verb_ne_semi (t : List Char) (h : t ∈ allowed_leading_verbs) :
    t ≠ [semiChar] := by
  have hall : ∀ u ∈ allowed_leading_verbs, u ≠ [semiChar] := by decide
  exact hall t h

theorem validate_accepted_main (cfg : Config) (s r : String)
    (h : validate cfg s = Verdict.accepted r) :
    r = String.mk (render (enforceLimit cfg (stripTrailingSemi (canonicalTokens s)))) ∧
    canonicalTokens r = enforceLimit cfg (stripTrailingSemi (canonicalTokens s)) ∧
    (∀ t ∈ enforceLimit cfg (stripTrailingSemi (canonicalTokens s)), GoodTok t) ∧
    (∀ t ∈ enforceLimit cfg (stripTrailingSemi (canonicalTokens s)), t ≠ [semiChar]) ∧
    (∀ w ∈ denylist_keywords,
      w ∉ enforceLimit cfg (stripTrailingSemi (canonicalTokens s))) ∧
    ∃ t0, (enforceLimit cfg (stripTrailingSemi (canonicalTokens s))).head? = some t0 ∧
      t0 ∈ allowed_leading_verbs := by
  obtain ⟨hcount, hcl, hr⟩ := validate_accepted_inv cfg s r h
  obtain ⟨t0, rest, hts, hallow, hdeny, hsemi⟩ := classifyTokens_none_inv _ hcl
  have hgoodcs : ∀ t ∈ canonicalTokens s, GoodTok t := canonicalTokens_goodTok s
  have hheadcs : (canonicalTokens s).head? = some t0 := by rw [hts]; rfl
  have hgoodcs' : ∀ t ∈ stripTrailingSemi (canonicalTokens s), GoodTok t :=
    stripTrailingSemi_goodTok _ hgoodcs
  have hsemics' : ∀ t ∈ stripTrailingSemi (canonicalTokens s), t ≠ [semiChar] :=
    stripTrailingSemi_no_semi _ hsemi
  have hheadcs' : (stripTrailingSemi (canonicalTokens s)).head? = some t0 :=
    stripTrailingSemi_head _ t0 hheadcs (allowed_verb_ne_semi t0 hallow)
  have hdenycs' : ∀ w ∈ denylist_keywords, w ∉ stripTrailingSemi (canonicalTokens s) :=
    fun w hw hmem => hdeny w hw (mem_stripTrailingSemi _ w hmem)
  have hgood' : ∀ t ∈ enforceLimit cfg (stripTrailingSemi (canonicalTokens s)), GoodTok t :=
    enforceLimit_goodTok cfg _ hgoodcs'
  refine ⟨hr, ?_, hgood', enforceLimit_no_semi cfg _ hsemics',
    enforceLimit_no_deny cfg _ hdenycs',
    t0, enforceLimit_head cfg _ t0 hheadcs' hallow, hallow⟩
  rw [hr]
  exact canonicalTokens_render _ hgood'

theorem validate_accepted_exists (cfg : Config) (s r : String)
    (h : validate cfg s = Verdict.accepted r) :
    ∃ ts', enforceLimit cfg (stripTrailingSemi (canonicalTokens s)) = ts' ∧
      r = String.mk (render ts') ∧ canonicalTokens r = ts' ∧
      (∀ t ∈ ts', GoodTok t) ∧ (∀ t ∈ ts', t ≠ [semiChar]) ∧
      (∀ w ∈ denylist_keywords, w ∉ ts') ∧
      ∃ t0, ts'.head? = some t0 ∧ t0 ∈ allowed_leading_verbs := by
  obtain ⟨hr, hcanon, hgood, hsemi, hdeny, t0, hhead, hallow⟩ :=
    validate_accepted_main cfg s r h
  exact ⟨_, rfl, hr, hcanon, hgood, hsemi, hdeny, t0, hhead, hallow⟩

/-- Claim C4: for every accepted statement, the Limit Enforcer's rewrite
satisfies: with no top-level `LIMIT` clause, the statement sent to the
database is the statement with `LIMIT default_row_limit` appended; with a
top-level `LIMIT n` and `n > max_row_limit`, the executed statement
carries `LIMIT max_row_limit`; and with `n ≤ max_row_limit` the statement
is unchanged.  The rewritten statement is observed through its own
canonical token view. -/
theorem C4_limit_enforcer :
    ∀ (cfg : Config) (s r : String), validate cfg s = Verdict.accepted r →
      (limitSuffix (stripTrailingSemi (canonicalTokens s)) = none →
        canonicalTokens r =
          stripTrailingSemi (canonicalTokens s) ++
            [limitTok, natDigits cfg.default_row_limit] ∧
        limitSuffix (canonicalTokens r) = some cfg.default_row_limit) ∧
      (∀ n, limitSuffix (stripTrailingSemi (canonicalTokens s)) = some n →
        cfg.max_row_limit < n →
        limitSuffix (canonicalTokens r) = some cfg.max_row_limit) ∧
      (∀ n, limitSuffix (stripTrailingSemi (canonicalTokens s)) = some n →
        n ≤ cfg.max_row_limit →
        canonicalTokens r = stripTrailingSemi (canonicalTokens s)) := by
  intro cfg s r h
  obtain ⟨-, hcanon, -, -, -, -⟩ := validate_accepted_main cfg s r h
  refine ⟨?_, ?_, ?_⟩
  · intro hnone
    rw [hcanon, enforceLimit_of_none cfg _ hnone]
    exact ⟨rfl, limitSuffix_append_limit _ _⟩
  · intro n hsome hlt
    obtain ⟨xs, nt, hxseq, hnum, hval⟩ := limitSuffix_some_inv _ n hsome
    rw [hcanon, hxseq, enforceLimit_concat cfg xs nt hnum, hval, if_pos hlt]
    exact limitSuffix_append_limit _ _
  · intro n hsome hle
    obtain ⟨xs, nt, hxseq, hnum, hval⟩ := limitSuffix_some_inv _ n hsome
    rw [hcanon, hxseq, enforceLimit_concat cfg xs nt hnum, hval, if_neg (by omega)]

/-- Witness for claim C4: the spec's clamping example — `SELECT * FROM
orders LIMIT 5000` with ceiling 200 executes with `LIMIT 200`. -/
theorem C4_witness :
    limitSuffix (canonicalTokens "select * from orders limit 200") =
      some exampleConfig.max_row_limit :=
  (C4_limit_enforcer exampleConfig "SELECT * FROM orders LIMIT 5000"
      "select * from orders limit 200" (by decide)).2.1 5000 (by decide) (by decide)

/-- Claim C5: the validate-and-rewrite pipeline is idempotent — for every
statement the engine accepts and rewrites (under a configuration whose
default limit does not exceed the hard ceiling), re-validating the
already-rewritten statement yields the same rewritten statement. -/
theorem C5_validate_idempotent :
    ∀ (cfg : Config) (s r : String),
      cfg.default_row_limit ≤ cfg.max_row_limit →
      validate cfg s = Verdict.accepted r →
      validate cfg r = Verdict.accepted r := by
  intro cfg s r hdm h
  obtain ⟨ts', henf, hr, hcanon, hgood, hsemi, hdeny, t0, hhead, hallow⟩ :=
    validate_accepted_exists cfg s r h
  have hgood0 : GoodTok t0 := hgood t0 (List.mem_of_mem_head? hhead)
  have hrdata : r.data = render ts' := by rw [hr]
  have hstrip : stripComments (render ts') = render ts' :=
    stripCommentsAux_id _ (noCommPair_render ts' hgood)
  have hcount : countStatements (stripComments r.data) = 1 := by
    rw [hrdata, hstrip]
    refine countStatements_no_semi _ (render_no_semi ts' hgood hsemi) ?_
    obtain ⟨c, hc, hcw⟩ := goodTok_has_nonws t0 hgood0
    exact ⟨c, render_head_mem ts' t0 hhead c hc, hcw⟩
  have hcls : classifyTokens (canonicalTokens r) = none := by
    rw [hcanon]
    cases ts' with
    | nil => exact absurd hhead (by simp)
    | cons a rest =>
      have ha : a = t0 := Option.some.inj hhead
      have hallow2 : a ∈ allowed_leading_verbs := by rw [ha]; exact hallow
      refine classifyTokens_eq_none a rest hallow2 hdeny ?_
      intro hmem
      exact hsemi [semiChar] (List.dropLast_subset _ hmem) rfl
  have hidem : enforceLimit cfg ts' = ts' := by
    rw [← henf]
    exact enforceLimit_idem cfg _ hdm
  unfold validate
  rw [if_neg (by omega)]
  split
  next e heq =>
    rw [hcls] at heq
    cases heq
  next heq =>
    rw [hcanon, stripTrailingSemi_id ts' hsemi, hidem, ← hr]

/-- Witness for claim C5: re-validating the rewritten form of the spec's
clamping example reproduces it unchanged. -/
theorem C5_witness :
    validate exampleConfig "select * from orders limit 200" =
      Verdict.accepted "select * from orders limit 200" :=
  C5_validate_idempotent exampleConfig "SELECT * FROM orders LIMIT 5000"
    "select * from orders limit 200" (by decide) (by decide)
